import Mathlib

/-
Shallow embedding of the flyio-dist-challenges repository (src/src/lib.rs and
src/src/bin/kafka.rs): the envelope protocol, the dispatch runtime's intake
loop, and the Kafka-style log engine (append, indexed read, commit store,
index rebuild), together with proofs settling the frozen claims.

Modelling conventions:
  - Rust HashMaps keyed by strings become functions `String → Option _`;
    HashMap/Vec values iterated in request order become association lists.
  - The durable per-topic log file becomes a `List LogEntry` (one element per
    physical line); byte locations stay genuine byte counts, computed from the
    exact serde_json line format via `entryLen`.
  - Fallible I/O: the append path takes a `wFault` flag that makes the
    `write_all` call fail (the one durable-write failure the claims are
    about); other I/O is modelled as succeeding.  Rust methods that mutate
    `self` in place and then return `Err` through `?` are modelled as
    returning the post-mutation state together with the error, since those
    mutations persist in the Rust object.
  - A process abort (an `unwrap` of a missing map entry) is the `panicked`
    error.
-/

namespace FlyioDist

/-- One record line of a topic's backing file (`LogEntry` in kafka.rs). -/
structure LogEntry where
  offset : Nat
  message : Nat
  deriving DecidableEq, Repr

/-- Decimal digit count, as produced by serde_json for a usize. -/
def numDigits (n : Nat) : Nat := (toString n).length

/-- Byte length of one serialized line: the serde output
\x7b"offset":o,"message":m\x7d plus the newline is 23 bytes of framing
plus the digits of the two numbers. -/
def entryLen (e : LogEntry) : Nat :=
  23 + numDigits e.offset + numDigits e.message

/-- Total byte length of a file holding the given record lines. -/
def fileLen (f : List LogEntry) : Nat := (f.map entryLen).sum

/-- The record lines produced by appending values `vs` when the next offset
to assign is `base`: offsets `base, base+1, ...` paired with the values. -/
def mkFileFrom (base : Nat) : List Nat → List LogEntry
  | [] => []
  | v :: vs => ⟨base, v⟩ :: mkFileFrom (base + 1) vs

/-- The record lines of a topic whose appended values are `vs` (offsets from 0). -/
def mkFile (vs : List Nat) : List LogEntry := mkFileFrom 0 vs

/-- Seeking to byte `pos` of a file and reading line records to EOF:
succeeds with the suffix of lines when `pos` is a line boundary (or past the
end), and fails (the first, truncated line does not parse) when `pos` falls
strictly inside a line.  Index positions are always line boundaries in
reachable states, so only the boundary branch is ever exercised. -/
def linesFrom : List LogEntry → Nat → Except Unit (List LogEntry)
  | [], _ => .ok []
  | e :: rest, pos =>
      if pos = 0 then .ok (e :: rest)
      else if pos < entryLen e then .error ()
      else linesFrom rest (pos - entryLen e)

/-- The `started` loop of `read_messages`: the first line read is kept only
when its offset equals the requested start offset; later lines are always
kept. -/
def collectFrom (start : Nat) : List LogEntry → List LogEntry
  | [] => []
  | e :: rest => (if e.offset = start then [e] else []) ++ rest

/-- Errors surfaced by the modelled operations: a failing durable write
(anyhow StorageError), a record line that does not parse back, and a process
abort on an `unwrap` of a missing map entry. -/
inductive RunError where
  | storageFail
  | parseFail
  | panicked
  deriving DecidableEq, Repr

/-- The mutable state of `KafkaNode` plus the durable state it owns: the
in-memory maps (`next_offsets`, `file_handles`, `index`) and the on-disk
per-topic log files and commit files. -/
structure KafkaState where
  id : String
  node_ids : List String
  msg_id_seq : Nat
  topics : List String
  next_offsets : String → Option Nat
  file_handles : String → Bool
  index : String → Option (Nat → Option Nat)
  files : String → Option (List LogEntry)
  commits : String → Option Nat

/-- KafkaNode::get_or_create_log_file: when no handle exists for the topic,
create-and-open the file (an absent file becomes an existing empty one) and
insert a next-offset counter of 0 when the counter map lacks the topic. -/
def get_or_create_log_file (st : KafkaState) (topic : String) : KafkaState :=
  if st.file_handles topic then st
  else
    { st with
      files := fun t => if t = topic then some ((st.files topic).getD []) else st.files t,
      next_offsets := fun t =>
        if t = topic then some ((st.next_offsets topic).getD 0) else st.next_offsets t,
      file_handles := fun t => if t = topic then true else st.file_handles t }

/-- KafkaNode::update_index: insert `current_offset ↦ file_loc_ptr` into the
topic's index map, creating the per-topic map first when absent. -/
def update_index (st : KafkaState) (topic : String) (current_offset : Nat)
    (file_loc_ptr : Nat) : KafkaState :=
  match st.index topic with
  | some entry =>
      { st with index := fun t =>
          if t = topic then
            some (fun o => if o = current_offset then some file_loc_ptr else entry o)
          else st.index t }
  | none =>
      { st with index := fun t =>
          if t = topic then
            some (fun o => if o = current_offset then some file_loc_ptr else none)
          else st.index t }

/-- KafkaNode::append_message, in source order: ensure the file handle and
counter, read the counter, take the current file length as the record's byte
location, serialize, increment the counter, then perform the durable write
(which fails when `wFault` is set — at that point the counter increment has
already happened), and finally update the index. -/
def append_message (wFault : Bool) (st : KafkaState) (topic : String) (message : Nat) :
    KafkaState × Except RunError Nat :=
  let st1 := get_or_create_log_file st topic
  match st1.next_offsets topic with
  | none => (st1, .error .panicked)
  | some current_offset =>
      let start_ptr := fileLen ((st1.files topic).getD [])
      let st2 := { st1 with next_offsets := fun t =>
        if t = topic then some (current_offset + 1) else st1.next_offsets t }
      if wFault then (st2, .error .storageFail)
      else
        let newFile := ((st2.files topic).getD []) ++ [⟨current_offset, message⟩]
        let st3 := { st2 with files := fun t =>
          if t = topic then some newFile else st2.files t }
        (update_index st3 topic current_offset start_ptr, .ok current_offset)

/-- KafkaNode::read_messages: an unknown topic or a start offset absent from
the topic's index yields Ok(empty); otherwise seek to the indexed byte
location and collect records to EOF under the `started` rule. -/
def read_messages (st : KafkaState) (topic : String) (start_message_offset : Nat) :
    KafkaState × Except RunError (List (Nat × Nat)) :=
  match st.index topic with
  | none => (st, .ok [])
  | some entry =>
      match entry start_message_offset with
      | none => (st, .ok [])
      | some pos =>
          let st1 := get_or_create_log_file st topic
          match linesFrom ((st1.files topic).getD []) pos with
          | .error _ => (st1, .error .parseFail)
          | .ok ls =>
              (st1, .ok ((collectFrom start_message_offset ls).map fun e => (e.offset, e.message)))

/-- KafkaNode::commit: durably overwrite the topic's commit file with the
offset (the file stores the decimal integer; it parses back unchanged, so the
model stores the number). -/
def commit (st : KafkaState) (topic : String) (commit_offset : Nat) : KafkaState :=
  { st with commits := fun t => if t = topic then some commit_offset else st.commits t }

/-- KafkaNode::read_commit: read the topic's commit file, None when absent. -/
def read_commit (st : KafkaState) (topic : String) : Option Nat :=
  st.commits topic

/-- Association-list lookup by string key (first match). -/
def lookupA (k : String) : List (String × α) → Option α
  | [] => none
  | p :: rest => if p.1 = k then some p.2 else lookupA k rest

/-- The ListCommittedOffsets loop of KafkaNode::step: walk the requested keys,
skip topics with no commit file, and `entry(..).or_insert(..)` the rest (the
first occurrence of a duplicated key wins). -/
def list_committed_go (st : KafkaState) (acc : List (String × Nat)) :
    List String → List (String × Nat)
  | [] => acc
  | top :: rest =>
      match read_commit st top with
      | none => list_committed_go st acc rest
      | some v =>
          list_committed_go st
            (if (lookupA top acc).isSome then acc else acc ++ [(top, v)]) rest

/-- The committed-offsets map the ListCommittedOffsets branch replies with. -/
def list_committed (st : KafkaState) (keys : List String) : List (String × Nat) :=
  list_committed_go st [] keys

/-- One line of the KafkaNode::build_index scan: record the line's byte
location under its offset, track the running maximum offset (seeded with 0),
and advance the byte location by the line length. -/
def build_index_line (acc : (Nat → Option Nat) × Nat × Nat) (e : LogEntry) :
    (Nat → Option Nat) × Nat × Nat :=
  ((fun o => if o = e.offset then some acc.2.2 else acc.1 o),
   (if e.offset > acc.2.1 then e.offset else acc.2.1),
   acc.2.2 + entryLen e)

/-- Scanning one topic file during build_index: returns the per-topic index
map (grown from `init`, matching `index.entry(topic).or_default()`) and the
final max-offset tracker. -/
def build_index_file (init : Nat → Option Nat) (contents : List LogEntry) :
    (Nat → Option Nat) × Nat :=
  let r := contents.foldl build_index_line (init, 0, 0)
  (r.1, r.2.1)

/-- KafkaNode::build_index over the globbed topic files, modelled as a list of
(topic, parsed file contents) pairs — the glob-and-parse-filename step is
abstracted to handing over each topic's name with its lines.  Every existing
file gets a next-offset entry of (max tracker) + 1; the index gains a
per-topic map only when at least one line was scanned. -/
def build_index_go
    (acc : (String → Option (Nat → Option Nat)) × (String → Option Nat)) :
    List (String × List LogEntry) →
      (String → Option (Nat → Option Nat)) × (String → Option Nat)
  | [] => acc
  | (topic, contents) :: rest =>
      let fr := build_index_file ((acc.1 topic).getD (fun _ => none)) contents
      build_index_go
        ((fun t => if t = topic then
            (if contents.isEmpty then acc.1 t else some fr.1) else acc.1 t),
         (fun t => if t = topic then some (fr.2 + 1) else acc.2 t))
        rest

/-- KafkaNode::build_index on the node's durable topic files. -/
def build_index (disk : List (String × List LogEntry)) :
    (String → Option (Nat → Option Nat)) × (String → Option Nat) :=
  build_index_go ((fun _ => none), (fun _ => none)) disk

/-- KafkaNode::from_init: fresh in-memory state, then (index, next_offsets)
replaced by the rebuild from the node's durable files; the on-disk state
itself (`files`, `commits`) is whatever the disk holds. -/
def from_init (node_id : String) (node_ids : List String)
    (disk : List (String × List LogEntry)) (commitDisk : String → Option Nat) :
    KafkaState :=
  let bi := build_index disk
  { id := node_id, node_ids := node_ids, msg_id_seq := 1, topics := [],
    next_offsets := bi.2, file_handles := fun _ => false, index := bi.1,
    files := fun t => lookupA t disk, commits := commitDisk }

/-- A freshly bootstrapped node with no durable state on disk. -/
def initState (node_id : String) (node_ids : List String) : KafkaState :=
  from_init node_id node_ids [] (fun _ => none)

/-- Message body (lib.rs `Body`). -/
structure Body (P : Type) where
  msg_id : Option Nat
  in_reply_to : Option Nat
  payload : P
  deriving DecidableEq, Repr

/-- Wire envelope (lib.rs `Message`). -/
structure Message (P : Type) where
  src : String
  dst : String
  body : Body P
  deriving DecidableEq, Repr

/-- Message::to_reply: swap src and dst, keep the payload, set in_reply_to to
the input's msg_id, and draw the reply's msg_id from the caller's counter
when one is supplied.  The Rust takes `Option<&mut usize>` and bumps the
counter in place; the model returns the counter's new value alongside. -/
def Message.to_reply (self : Message P) (msg_id : Option Nat) :
    Message P × Option Nat :=
  ({ src := self.dst, dst := self.src,
     body := { msg_id := msg_id, in_reply_to := self.body.msg_id,
               payload := self.body.payload } },
   msg_id.map (· + 1))

/-- The kafka node's payload variants (kafka.rs `Payload`). -/
inductive Payload where
  | send (topic : String) (message : Nat)
  | sendOk (offset : Nat)
  | poll (offsets : List (String × Nat))
  | pollOk (messages : List (String × List (Nat × Nat)))
  | commitOffsets (offsets : List (String × Nat))
  | commitOffsetsOk
  | listCommittedOffsets (keys : List String)
  | listCommittedOffsetsOk (offsets : List (String × Nat))
  deriving DecidableEq, Repr

/-- Whether a payload is one of the reply variants, which KafkaNode::step
matches with the catch-all arm and ignores. -/
def Payload.isReplyVariant : Payload → Bool
  | .sendOk _ => true
  | .pollOk _ => true
  | .commitOffsetsOk => true
  | .listCommittedOffsetsOk _ => true
  | _ => false

/-- HashMap::insert on the association-list model: replace the value of an
existing key in place, otherwise add the pair at the end. -/
def insertAssoc (m : List (String × α)) (k : String) (v : α) : List (String × α) :=
  if (lookupA k m).isSome then m.map (fun p => if p.1 = k then (k, v) else p)
  else m ++ [(k, v)]

/-- The body of the Poll loop in KafkaNode::step: one read_messages call per
requested (topic, offset), inserting the result into the reply map; a `?`
error stops the loop and is surfaced. -/
def poll_loop_body (acc : KafkaState × Except RunError (List (String × List (Nat × Nat))))
    (p : String × Nat) : KafkaState × Except RunError (List (String × List (Nat × Nat))) :=
  match acc with
  | (stA, .error e) => (stA, .error e)
  | (stA, .ok res) =>
      match read_messages stA p.1 p.2 with
      | (stB, .error e) => (stB, .error e)
      | (stB, .ok v) => (stB, .ok (insertAssoc res p.1 v))

/-- KafkaNode::step: build the reply skeleton via to_reply (this advances
msg_id_seq once for every envelope, requests and replies alike), then branch
on the payload.  Outputs are the envelopes written to the sink, in order; a
`?` error inside a branch aborts the branch with the mutations so far kept,
and nothing is written. -/
def step (wFault : Bool) (st0 : KafkaState) (input : Message Payload) :
    KafkaState × Except RunError (List (Message Payload)) :=
  let r := input.to_reply (some st0.msg_id_seq)
  let reply := r.1
  let st := { st0 with msg_id_seq := r.2.getD st0.msg_id_seq }
  match reply.body.payload with
  | .send topic message =>
      match append_message wFault st topic message with
      | (st', .error e) => (st', .error e)
      | (st', .ok ofs) =>
          (st', .ok [{ reply with body := { reply.body with payload := .sendOk ofs } }])
  | .poll offsets =>
      let fr := offsets.foldl poll_loop_body (st, .ok [])
      match fr with
      | (st', .error e) => (st', .error e)
      | (st', .ok res) =>
          (st', .ok [{ reply with body := { reply.body with payload := .pollOk res } }])
  | .commitOffsets offsets =>
      (offsets.foldl (fun s p => commit s p.1 p.2) st,
       .ok [{ reply with body := { reply.body with payload := .commitOffsetsOk } }])
  | .listCommittedOffsets keys =>
      (st, .ok [{ reply with body :=
        { reply.body with payload := .listCommittedOffsetsOk (list_committed st keys) } }])
  | _ => (st, .ok [])

/-- The intake thread spawned by main_loop after bootstrap: decode each line
and forward it; the source `unwrap`s the decode result, so a line that fails
to decode aborts the thread.  Returns the messages forwarded, in order, and
whether the thread ended by such an abort. -/
def intake_loop (decode : String → Option M) : List String → List M × Bool
  | [] => ([], false)
  | l :: rest =>
      match decode l with
      | none => ([], true)
      | some m =>
          let r := intake_loop decode rest
          (m :: r.1, r.2)

/-- A sequence of fault-free append_message calls on one topic, collecting the
call results in order. -/
def runAppends : KafkaState → String → List Nat → KafkaState × List (Except RunError Nat)
  | st, _, [] => (st, [])
  | st, topic, v :: vs =>
      let r := append_message false st topic v
      let rest := runAppends r.1 topic vs
      (rest.1, r.2 :: rest.2)

/-- States reachable by a freshly bootstrapped node (empty disk) processing
envelopes fault-free, one at a time — the setting whose guarantees the spec's
functional claims describe. -/
inductive Reach : KafkaState → Prop
  | init (node_id : String) (node_ids : List String) :
      Reach (initState node_id node_ids)
  | next {st : KafkaState} (input : Message Payload) :
      Reach st → Reach (step false st input).1

/-- The index map a topic with appended values `vs` has: offset `o` maps to
the byte length of the records before it, for `o < vs.length`. -/
def idxMap (vs : List Nat) : Nat → Option Nat :=
  fun o => if o < vs.length then some (fileLen (mkFile (vs.take o))) else none

/-- Per-topic state invariant: either the topic is untouched (no handle, no
file, no counter, no index), or the topic's appended values are some `vs`,
with the file holding exactly records (i, vs[i]), the counter at vs.length,
and the index mapping each written offset to its line's byte start. -/
def FileInv (st : KafkaState) (t : String) (vs : List Nat) : Prop :=
  (vs = [] ∧ st.file_handles t = false ∧ st.files t = none ∧
    st.next_offsets t = none ∧ st.index t = none)
  ∨ (st.file_handles t = true ∧ st.files t = some (mkFile vs) ∧
    st.next_offsets t = some vs.length ∧ st.index t = some (idxMap vs))

/-- Global invariant: every topic satisfies its per-topic invariant. -/
def Inv (st : KafkaState) : Prop := ∀ t, ∃ vs, FileInv st t vs

/-- The per-read value a poll reply carries for one requested (topic, offset),
read against a fixed state (total version of read_messages' result). -/
def readValD (st : KafkaState) (t : String) (s : Nat) : List (Nat × Nat) :=
  match (read_messages st t s).2 with
  | .ok l => l
  | .error _ => []

/-! ### Basic lemmas about the file model -/

theorem entryLen_pos (e : LogEntry) : 0 < entryLen e := by
  simp [entryLen]

@[simp] theorem mkFileFrom_nil (b : Nat) : mkFileFrom b [] = [] := rfl

@[simp] theorem mkFileFrom_cons (b v : Nat) (vs : List Nat) :
    mkFileFrom b (v :: vs) = ⟨b, v⟩ :: mkFileFrom (b + 1) vs := rfl

@[simp] theorem mkFileFrom_length (b : Nat) (vs : List Nat) :
    (mkFileFrom b vs).length = vs.length := by
  induction vs generalizing b with
  | nil => rfl
  | cons v vs ih => simp [ih]

theorem mkFileFrom_append (b : Nat) (vs : List Nat) (v : Nat) :
    mkFileFrom b (vs ++ [v]) = mkFileFrom b vs ++ [⟨b + vs.length, v⟩] := by
  induction vs generalizing b with
  | nil => simp
  | cons w vs ih =>
      simp only [List.cons_append, mkFileFrom_cons, ih, List.length_cons]
      have h1 : b + 1 + vs.length = b + (vs.length + 1) := by omega
      rw [h1]

theorem mkFileFrom_drop (b : Nat) (vs : List Nat) (i : Nat) :
    (mkFileFrom b vs).drop i = mkFileFrom (b + i) (vs.drop i) := by
  induction vs generalizing b i with
  | nil => simp
  | cons v vs ih =>
      cases i with
      | zero => simp
      | succ j =>
          simp only [mkFileFrom_cons, List.drop_succ_cons, ih]
          congr 1
          omega

@[simp] theorem fileLen_nil : fileLen [] = 0 := rfl

@[simp] theorem fileLen_cons (e : LogEntry) (f : List LogEntry) :
    fileLen (e :: f) = entryLen e + fileLen f := by
  simp [fileLen]

theorem mkFileFrom_take (b : Nat) (vs : List Nat) (i : Nat) :
    (mkFileFrom b vs).take i = mkFileFrom b (vs.take i) := by
  induction vs generalizing b i with
  | nil => simp
  | cons v vs ih =>
      cases i with
      | zero => simp
      | succ j => simp [ih]

theorem take_append_left (vs : List Nat) (v : Nat) (o : Nat) (h : o ≤ vs.length) :
    (vs ++ [v]).take o = vs.take o := by
  induction vs generalizing o with
  | nil =>
      cases o with
      | zero => simp
      | succ j => simp at h
  | cons w vs ih =>
      cases o with
      | zero => simp
      | succ j =>
          simp only [List.cons_append, List.take_succ_cons]
          rw [ih]
          simpa using h

theorem linesFrom_zero (f : List LogEntry) : linesFrom f 0 = .ok f := by
  cases f <;> simp [linesFrom]

/-- Seeking to the byte start of line `i` of a generated file reads exactly
the lines from `i` on. -/
theorem linesFrom_boundary (vs : List Nat) (b i : Nat) (h : i ≤ vs.length) :
    linesFrom (mkFileFrom b vs) (fileLen (mkFileFrom b (vs.take i))) =
      .ok (mkFileFrom (b + i) (vs.drop i)) := by
  induction vs generalizing b i with
  | nil =>
      simp at h
      subst h
      simp [linesFrom]
  | cons v vs ih =>
      cases i with
      | zero => simp [linesFrom_zero]
      | succ j =>
          have hj : j ≤ vs.length := by simpa using h
          have hpos : 0 < entryLen (⟨b, v⟩ : LogEntry) := entryLen_pos _
          simp only [List.take_succ_cons, mkFileFrom_cons, fileLen_cons, linesFrom]
          have hne : ¬ (entryLen (⟨b, v⟩ : LogEntry) +
              fileLen (mkFileFrom (b + 1) (vs.take j)) = 0) := by omega
          have hlt : ¬ (entryLen (⟨b, v⟩ : LogEntry) +
              fileLen (mkFileFrom (b + 1) (vs.take j)) < entryLen (⟨b, v⟩ : LogEntry)) := by
            omega
          rw [if_neg hne, if_neg hlt]
          have harith : entryLen (⟨b, v⟩ : LogEntry) +
              fileLen (mkFileFrom (b + 1) (vs.take j)) - entryLen (⟨b, v⟩ : LogEntry) =
              fileLen (mkFileFrom (b + 1) (vs.take j)) := by omega
          rw [harith, ih (b + 1) j hj]
          simp only [List.drop_succ_cons]
          congr 2
          omega

theorem map_offset_mkFileFrom (b : Nat) (vs : List Nat) :
    (mkFileFrom b vs).map LogEntry.offset = List.range' b vs.length := by
  induction vs generalizing b with
  | nil => simp
  | cons v vs ih => simp [List.range'_succ, ih]

theorem collectFrom_full (s : Nat) (vs : List Nat) (h : vs ≠ []) :
    collectFrom s (mkFileFrom s vs) = mkFileFrom s vs := by
  cases vs with
  | nil => simp at h
  | cons v vs => simp [collectFrom]

/-! ### Frame lemmas for the state operations -/

theorem gocf_of_handle {st : KafkaState} {t : String}
    (h : st.file_handles t = true) : get_or_create_log_file st t = st := by
  simp [get_or_create_log_file, h]

theorem gocf_index (st : KafkaState) (t : String) :
    (get_or_create_log_file st t).index = st.index := by
  unfold get_or_create_log_file
  split <;> rfl

theorem gocf_commits (st : KafkaState) (t : String) :
    (get_or_create_log_file st t).commits = st.commits := by
  unfold get_or_create_log_file
  split <;> rfl

theorem gocf_msg_id_seq (st : KafkaState) (t : String) :
    (get_or_create_log_file st t).msg_id_seq = st.msg_id_seq := by
  unfold get_or_create_log_file
  split <;> rfl

theorem gocf_files_self (st : KafkaState) (t : String) (h : st.file_handles t = false) :
    (get_or_create_log_file st t).files t = some ((st.files t).getD []) := by
  simp [get_or_create_log_file, h]

theorem gocf_next_self (st : KafkaState) (t : String) (h : st.file_handles t = false) :
    (get_or_create_log_file st t).next_offsets t = some ((st.next_offsets t).getD 0) := by
  simp [get_or_create_log_file, h]

theorem gocf_handle_self (st : KafkaState) (t : String) :
    (get_or_create_log_file st t).file_handles t = true := by
  unfold get_or_create_log_file
  split
  · assumption
  · simp

theorem gocf_frame (st : KafkaState) (t u : String) (hu : u ≠ t) :
    (get_or_create_log_file st t).files u = st.files u ∧
    (get_or_create_log_file st t).next_offsets u = st.next_offsets u ∧
    (get_or_create_log_file st t).file_handles u = st.file_handles u := by
  unfold get_or_create_log_file
  split
  · exact ⟨rfl, rfl, rfl⟩
  · simp [hu]

/-! ### Characterizing append_message on invariant-satisfying states -/

/-- Fault-free append on a topic already holding values `vs`: the full
result, as one record equation. -/
theorem append_message_active (st : KafkaState) (t : String) (vs : List Nat) (v : Nat)
    (hh : st.file_handles t = true) (hf : st.files t = some (mkFile vs))
    (hn : st.next_offsets t = some vs.length) (hi : st.index t = some (idxMap vs)) :
    append_message false st t v =
      ({ st with
          next_offsets := fun u => if u = t then some (vs.length + 1) else st.next_offsets u,
          files := fun u => if u = t then some (mkFile vs ++ [⟨vs.length, v⟩]) else st.files u,
          index := fun u => if u = t then
              some (fun o => if o = vs.length then some (fileLen (mkFile vs)) else idxMap vs o)
            else st.index u },
       .ok vs.length) := by
  simp only [append_message, gocf_of_handle hh, hn, hf, Option.getD_some, update_index, hi]
  rfl

/-- The new per-topic index after an append extends the old one exactly to
`idxMap (vs ++ [v])`. -/
theorem idxMap_snoc (vs : List Nat) (v : Nat) :
    (fun o => if o = vs.length then some (fileLen (mkFile vs)) else idxMap vs o) =
      idxMap (vs ++ [v]) := by
  funext o
  unfold idxMap
  by_cases ho : o = vs.length
  · have h1 : o < (vs ++ [v]).length := by simp; omega
    rw [if_pos ho, if_pos h1, ho, take_append_left vs v vs.length (Nat.le_refl _),
      List.take_length]
  · rw [if_neg ho]
    by_cases hlt : o < vs.length
    · have h2 : o < (vs ++ [v]).length := by simp; omega
      rw [if_pos hlt, if_pos h2, take_append_left vs v o (by omega)]
    · have h3 : ¬ o < (vs ++ [v]).length := by simp; omega
      rw [if_neg hlt, if_neg h3]

/-- Fault-free append on a topic satisfying its invariant: the call returns
offset `vs.length` (the record count so far), re-establishes the invariant
with the value appended, and leaves every other topic, the commit store and
the message-id counter untouched. -/
theorem append_message_ok (st : KafkaState) (t : String) (vs : List Nat) (v : Nat)
    (h : FileInv st t vs) :
    append_message false st t v = ((append_message false st t v).1, .ok vs.length) ∧
    FileInv (append_message false st t v).1 t (vs ++ [v]) ∧
    (∀ u, u ≠ t → (append_message false st t v).1.files u = st.files u ∧
      (append_message false st t v).1.next_offsets u = st.next_offsets u ∧
      (append_message false st t v).1.file_handles u = st.file_handles u ∧
      (append_message false st t v).1.index u = st.index u) ∧
    (append_message false st t v).1.commits = st.commits ∧
    (append_message false st t v).1.msg_id_seq = st.msg_id_seq := by
  rcases h with ⟨hnil, hh, hf, hn, hi⟩ | ⟨hh, hf, hn, hi⟩
  · subst hnil
    refine ⟨?_, ?_, ?_, ?_, ?_⟩
    · have h2 : (append_message false st t v).2 = .ok 0 := by
        simp [append_message, get_or_create_log_file, hh, hf, hn, hi, update_index]
      show append_message false st t v = ((append_message false st t v).1, .ok 0)
      rw [← h2]
    · right
      refine ⟨?_, ?_, ?_, ?_⟩
      · simp [append_message, get_or_create_log_file, hh, hf, hn, hi, update_index]
      · have : mkFile ([] ++ [v]) = [⟨0, v⟩] := rfl
        rw [this]
        simp [append_message, get_or_create_log_file, hh, hf, hn, hi, update_index]
      · simp [append_message, get_or_create_log_file, hh, hf, hn, hi, update_index]
      · have he : idxMap ([] ++ [v]) = fun o => if o = 0 then some 0 else none := by
          rw [← idxMap_snoc []]
          rfl
        rw [he]
        simp [append_message, get_or_create_log_file, hh, hf, hn, hi, update_index]
    · intro u hu
      refine ⟨?_, ?_, ?_, ?_⟩ <;>
        simp [append_message, get_or_create_log_file, hh, hf, hn, hi, update_index, hu]
    · simp [append_message, get_or_create_log_file, hh, hf, hn, hi, update_index]
    · simp [append_message, get_or_create_log_file, hh, hf, hn, hi, update_index]
  · have hc := append_message_active st t vs v hh hf hn hi
    rw [hc]
    refine ⟨rfl, ?_, ?_, rfl, rfl⟩
    · right
      refine ⟨hh, ?_, ?_, ?_⟩
      · show (if t = t then some (mkFile vs ++ [(⟨vs.length, v⟩ : LogEntry)]) else st.files t) =
          some (mkFile (vs ++ [v]))
        rw [if_pos rfl]
        unfold mkFile
        rw [mkFileFrom_append]
        simp
      · show (if t = t then some (vs.length + 1) else st.next_offsets t) =
          some ((vs ++ [v]).length)
        simp
      · show (if t = t then
            some (fun o => if o = vs.length then some (fileLen (mkFile vs)) else idxMap vs o)
          else st.index t) = some (idxMap (vs ++ [v]))
        rw [if_pos rfl, idxMap_snoc]
    · intro u hu
      refine ⟨?_, ?_, rfl, ?_⟩ <;> simp [hu]

/-! ### Characterizing read_messages on invariant-satisfying states -/

/-- Reading a topic that satisfies its invariant never fails, never mutates
the state, and returns exactly the records from the requested offset to the
end of the file (empty when the offset was never written). -/
theorem read_messages_spec (st : KafkaState) (t : String) (vs : List Nat) (s : Nat)
    (h : FileInv st t vs) :
    read_messages st t s = (st, .ok (readValD st t s)) ∧
    (s < vs.length →
      readValD st t s = ((mkFile vs).drop s).map (fun e => (e.offset, e.message))) ∧
    (vs.length ≤ s → readValD st t s = []) := by
  rcases h with ⟨hnil, hh, hf, hn, hi⟩ | ⟨hh, hf, hn, hi⟩
  · subst hnil
    have hr : read_messages st t s = (st, .ok []) := by simp [read_messages, hi]
    have hv : readValD st t s = [] := by simp [readValD, hr]
    exact ⟨by rw [hr, hv], fun hlt => by simp at hlt, fun _ => hv⟩
  · by_cases hs : s < vs.length
    · have hidx : idxMap vs s = some (fileLen (mkFile (vs.take s))) := by
        simp [idxMap, hs]
      have hdrop : vs.drop s ≠ [] := by
        intro hc
        have := congrArg List.length hc
        simp at this
        omega
      have hlines : linesFrom (mkFile vs) (fileLen (mkFile (vs.take s))) =
          .ok (mkFileFrom s (vs.drop s)) := by
        have := linesFrom_boundary vs 0 s (by omega)
        simpa [mkFile] using this
      have hcol : collectFrom s (mkFileFrom s (vs.drop s)) = mkFileFrom s (vs.drop s) :=
        collectFrom_full s (vs.drop s) hdrop
      have hr : read_messages st t s =
          (st, .ok ((mkFileFrom s (vs.drop s)).map (fun e => (e.offset, e.message)))) := by
        simp only [read_messages, hi, hidx, gocf_of_handle hh, hf, Option.getD_some,
          hlines, hcol]
      have hv : readValD st t s =
          (mkFileFrom s (vs.drop s)).map (fun e => (e.offset, e.message)) := by
        simp [readValD, hr]
      refine ⟨by rw [hr, hv], fun _ => ?_, fun hle => by omega⟩
      rw [hv]
      unfold mkFile
      rw [mkFileFrom_drop]
      simp
    · have hidx : idxMap vs s = none := by simp [idxMap, hs]
      have hr : read_messages st t s = (st, .ok []) := by
        simp [read_messages, hi, hidx]
      have hv : readValD st t s = [] := by simp [readValD, hr]
      exact ⟨by rw [hr, hv], fun hlt => by omega, fun _ => hv⟩

/-! ### The invariant holds on every reachable state -/

theorem fileInv_seq_update (st : KafkaState) (x : Nat) (t : String) (vs : List Nat) :
    FileInv { st with msg_id_seq := x } t vs ↔ FileInv st t vs := Iff.rfl

theorem fileInv_commit (st : KafkaState) (c : String) (n : Nat) (t : String) (vs : List Nat) :
    FileInv (commit st c n) t vs ↔ FileInv st t vs := Iff.rfl

theorem inv_initState (node_id : String) (node_ids : List String) :
    Inv (initState node_id node_ids) := by
  intro t
  exact ⟨[], Or.inl ⟨rfl, rfl, rfl, rfl, rfl⟩⟩

theorem inv_append (st : KafkaState) (t : String) (v : Nat) (h : Inv st) :
    Inv (append_message false st t v).1 := by
  intro u
  obtain ⟨vs, hvs⟩ := h t
  obtain ⟨_, hinv, hframe, _, _⟩ := append_message_ok st t vs v hvs
  by_cases hu : u = t
  · subst hu
    exact ⟨vs ++ [v], hinv⟩
  · obtain ⟨vsu, hvsu⟩ := h u
    obtain ⟨g1, g2, g3, g4⟩ := hframe u hu
    refine ⟨vsu, ?_⟩
    rcases hvsu with ⟨e1, e2, e3, e4, e5⟩ | ⟨e1, e2, e3, e4⟩
    · exact Or.inl ⟨e1, g3.trans e2, g1.trans e3, g2.trans e4, g4.trans e5⟩
    · exact Or.inr ⟨g3.trans e1, g1.trans e2, g2.trans e3, g4.trans e4⟩

/-- Under the invariant the Poll loop never fails and never moves the state:
the fold returns the input state with the accumulated reply map. -/
theorem poll_fold_spec (st : KafkaState) (h : Inv st) (offsets : List (String × Nat)) :
    ∀ acc : List (String × List (Nat × Nat)),
      offsets.foldl poll_loop_body (st, .ok acc) =
        (st, .ok (offsets.foldl (fun res p => insertAssoc res p.1 (readValD st p.1 p.2)) acc)) := by
  induction offsets with
  | nil => intro acc; rfl
  | cons p rest ih =>
      intro acc
      obtain ⟨vs, hvs⟩ := h p.1
      obtain ⟨hr, _, _⟩ := read_messages_spec st p.1 vs p.2 hvs
      have hone : poll_loop_body (st, .ok acc) p =
          (st, .ok (insertAssoc acc p.1 (readValD st p.1 p.2))) := by
        simp [poll_loop_body, hr]
      simp only [List.foldl_cons, hone, ih]

theorem inv_step (st : KafkaState) (input : Message Payload) (h : Inv st) :
    Inv (step false st input).1 := by
  obtain ⟨src, dst, mid, irt, p⟩ := input
  have hseq : Inv { st with msg_id_seq := st.msg_id_seq + 1 } := h
  cases p with
  | send topic message =>
      have happ := inv_append { st with msg_id_seq := st.msg_id_seq + 1 } topic message hseq
      obtain ⟨vs, hvs⟩ := hseq topic
      obtain ⟨heq, _, _, _, _⟩ :=
        append_message_ok { st with msg_id_seq := st.msg_id_seq + 1 } topic vs message hvs
      simp only [step, Message.to_reply, Option.map_some', Option.getD_some]
      rw [heq]
      exact happ
  | poll offsets =>
      have hfold := poll_fold_spec { st with msg_id_seq := st.msg_id_seq + 1 } hseq offsets []
      simp only [step, Message.to_reply, Option.map_some', Option.getD_some]
      rw [hfold]
      exact hseq
  | commitOffsets offsets =>
      simp only [step, Message.to_reply, Option.map_some', Option.getD_some]
      have hgen : ∀ (l : List (String × Nat)) (st0 : KafkaState), Inv st0 →
          Inv (l.foldl (fun s q => commit s q.1 q.2) st0) := by
        intro l
        induction l with
        | nil => intro st0 h0; exact h0
        | cons q rest ih =>
            intro st0 h0
            exact ih (commit st0 q.1 q.2) (fun u => h0 u)
      exact hgen offsets _ hseq
  | listCommittedOffsets keys =>
      simp only [step, Message.to_reply, Option.map_some', Option.getD_some]
      exact hseq
  | sendOk o =>
      simp only [step, Message.to_reply, Option.map_some', Option.getD_some]
      exact hseq
  | pollOk m =>
      simp only [step, Message.to_reply, Option.map_some', Option.getD_some]
      exact hseq
  | commitOffsetsOk =>
      simp only [step, Message.to_reply, Option.map_some', Option.getD_some]
      exact hseq
  | listCommittedOffsetsOk o =>
      simp only [step, Message.to_reply, Option.map_some', Option.getD_some]
      exact hseq

theorem reach_inv {st : KafkaState} (h : Reach st) : Inv st := by
  induction h with
  | init node_id node_ids => exact inv_initState node_id node_ids
  | next input _ ih => exact inv_step _ input ih

/-! ### Association-list and commit-store lemmas -/

theorem lookupA_append_of_none {k : String} {xs : List (String × α)}
    (h : lookupA k xs = none) (ys : List (String × α)) :
    lookupA k (xs ++ ys) = lookupA k ys := by
  induction xs with
  | nil => rfl
  | cons p rest ih =>
      by_cases hp : p.1 = k
      · simp [lookupA, hp] at h
      · simp only [lookupA, hp, if_neg hp] at h ⊢
        exact ih h

theorem lookupA_append_of_some {k : String} {xs : List (String × α)} {v : α}
    (h : lookupA k xs = some v) (ys : List (String × α)) :
    lookupA k (xs ++ ys) = some v := by
  induction xs with
  | nil => simp [lookupA] at h
  | cons p rest ih =>
      by_cases hp : p.1 = k
      · simp only [lookupA, if_pos hp] at h ⊢
        exact h
      · simp only [lookupA, if_neg hp] at h ⊢
        exact ih h

theorem lcg_lookup_of_some (st : KafkaState) (t : String) :
    ∀ (keys : List String) (acc : List (String × Nat)) (v : Nat),
      lookupA t acc = some v →
      lookupA t (list_committed_go st acc keys) = some v := by
  intro keys
  induction keys with
  | nil => intro acc v h; exact h
  | cons top rest ih =>
      intro acc v h
      unfold list_committed_go
      cases hrc : read_commit st top with
      | none => exact ih acc v h
      | some w =>
          by_cases hl : (lookupA top acc).isSome
          · simp only [hl, if_pos rfl]
            exact ih acc v h
          · simp only [hl]
            rw [if_neg (by simp [hl])]
            exact ih _ v (lookupA_append_of_some h _)

theorem lcg_lookup_none_norc (st : KafkaState) (t : String) (hrc : read_commit st t = none) :
    ∀ (keys : List String) (acc : List (String × Nat)),
      lookupA t acc = none →
      lookupA t (list_committed_go st acc keys) = none := by
  intro keys
  induction keys with
  | nil => intro acc h; exact h
  | cons top rest ih =>
      intro acc h
      unfold list_committed_go
      cases hr : read_commit st top with
      | none => exact ih acc h
      | some w =>
          have htop : ¬ top = t := by
            intro hc
            rw [hc, hrc] at hr
            cases hr
          by_cases hl : (lookupA top acc).isSome
          · simp only [hl, if_pos rfl]
            exact ih acc h
          · simp only [hl]
            rw [if_neg (by simp [hl])]
            refine ih _ ?_
            rw [lookupA_append_of_none h]
            simp [lookupA, htop]

theorem lcg_lookup_mem (st : KafkaState) (t : String) :
    ∀ (keys : List String) (acc : List (String × Nat)),
      lookupA t acc = none → t ∈ keys →
      lookupA t (list_committed_go st acc keys) = read_commit st t := by
  intro keys
  induction keys with
  | nil => intro acc _ hmem; cases hmem
  | cons top rest ih =>
      intro acc hacc hmem
      unfold list_committed_go
      by_cases htop : top = t
      · subst htop
        cases hrc : read_commit st top with
        | none => exact lcg_lookup_none_norc st top hrc rest acc hacc
        | some w =>
            have hl : ¬ (lookupA top acc).isSome := by simp [hacc]
            simp only [hl]
            rw [if_neg (by simp [hacc])]
            refine lcg_lookup_of_some st top rest _ w ?_
            rw [lookupA_append_of_none hacc]
            simp [lookupA]
      · have hmem' : t ∈ rest := by
          cases hmem with
          | head => exact absurd rfl htop
          | tail _ h => exact h
        cases hrc : read_commit st top with
        | none => exact ih acc hacc hmem'
        | some w =>
            by_cases hl : (lookupA top acc).isSome
            · simp only [hl, if_pos rfl]
              exact ih acc hacc hmem'
            · simp only [hl]
              rw [if_neg (by simp [hl])]
              refine ih _ ?_ hmem'
              rw [lookupA_append_of_none hacc]
              simp [lookupA, fun h => htop h]

theorem commit_commit_self (st : KafkaState) (t : String) (n : Nat) :
    commit (commit st t n) t n = commit st t n := by
  unfold commit
  congr 1
  funext u
  by_cases hu : u = t <;> simp [hu]

/-! ### Poll reply assembly -/

theorem poll_assemble (st : KafkaState) :
    ∀ (offsets : List (String × Nat)) (acc : List (String × List (Nat × Nat))),
      (offsets.map Prod.fst).Nodup →
      (∀ q ∈ offsets, lookupA q.1 acc = none) →
      offsets.foldl (fun res p => insertAssoc res p.1 (readValD st p.1 p.2)) acc =
        acc ++ offsets.map (fun p => (p.1, readValD st p.1 p.2)) := by
  intro offsets
  induction offsets with
  | nil => intro acc _ _; simp
  | cons p rest ih =>
      intro acc hnd hacc
      have hp : lookupA p.1 acc = none := hacc p (List.mem_cons_self p rest)
      have hins : insertAssoc acc p.1 (readValD st p.1 p.2) =
          acc ++ [(p.1, readValD st p.1 p.2)] := by
        simp [insertAssoc, hp]
      have hnd' : (rest.map Prod.fst).Nodup := (List.nodup_cons.mp (by simpa using hnd)).2
      have hnotin : p.1 ∉ rest.map Prod.fst := (List.nodup_cons.mp (by simpa using hnd)).1
      have hacc' : ∀ q ∈ rest, lookupA q.1 (acc ++ [(p.1, readValD st p.1 p.2)]) = none := by
        intro q hq
        have hq1 : q.1 ∈ rest.map Prod.fst := List.mem_map_of_mem Prod.fst hq
        have hne : ¬ p.1 = q.1 := fun hc => hnotin (hc ▸ hq1)
        rw [lookupA_append_of_none (hacc q (List.mem_cons_of_mem p hq))]
        simp [lookupA, hne]
      simp only [List.foldl_cons, hins, ih _ hnd' hacc', List.map_cons]
      simp

theorem lookupA_map_readValD (st : KafkaState) (t : String) (o : Nat) :
    ∀ offsets : List (String × Nat), (t, o) ∈ offsets → (offsets.map Prod.fst).Nodup →
      lookupA t (offsets.map (fun p => (p.1, readValD st p.1 p.2))) =
        some (readValD st t o) := by
  intro offsets
  induction offsets with
  | nil => intro hmem _; cases hmem
  | cons q rest ih =>
      intro hmem hnd
      cases hmem with
      | head =>
          simp [lookupA]
      | tail _ hmem' =>
          have hnotin : q.1 ∉ rest.map Prod.fst := (List.nodup_cons.mp (by simpa using hnd)).1
          have ht : t ∈ rest.map Prod.fst := (List.mem_map).mpr ⟨(t, o), hmem', rfl⟩
          have hne : ¬ q.1 = t := fun hc => hnotin (hc ▸ ht)
          simp only [List.map_cons, lookupA, if_neg hne]
          exact ih hmem' (List.nodup_cons.mp (by simpa using hnd)).2

theorem readValD_unknown (st : KafkaState) (t : String) (o : Nat)
    (h : st.index t = none ∨ ∃ e, st.index t = some e ∧ e o = none) :
    readValD st t o = [] := by
  rcases h with h | ⟨e, he, ho⟩
  · simp [readValD, read_messages, h]
  · simp [readValD, read_messages, he, ho]

/-! ### The append sequence and the rebuild scan -/

theorem range'_succ_eq (a n : Nat) : List.range' a (n + 1) = a :: List.range' (a + 1) n := rfl

theorem runAppends_spec (t : String) :
    ∀ (vs : List Nat) (st : KafkaState) (vs0 : List Nat), FileInv st t vs0 →
      (runAppends st t vs).2 = (List.range' vs0.length vs.length).map Except.ok ∧
      FileInv (runAppends st t vs).1 t (vs0 ++ vs) := by
  intro vs
  induction vs with
  | nil =>
      intro st vs0 h
      exact ⟨rfl, by simpa using h⟩
  | cons v rest ih =>
      intro st vs0 h
      obtain ⟨heq, hinv, _, _, _⟩ := append_message_ok st t vs0 v h
      obtain ⟨ih1, ih2⟩ := ih (append_message false st t v).1 (vs0 ++ [v]) hinv
      have hunfold : runAppends st t (v :: rest) =
          ((runAppends (append_message false st t v).1 t rest).1,
           (append_message false st t v).2 ::
             (runAppends (append_message false st t v).1 t rest).2) := rfl
      have h2 : (append_message false st t v).2 = .ok vs0.length := congrArg Prod.snd heq
      constructor
      · rw [hunfold]
        simp only [h2, ih1]
        simp [range'_succ_eq]
      · rw [hunfold]
        simpa [List.append_assoc] using ih2

theorem build_index_line_tracker (c : List LogEntry) :
    ∀ (init : Nat → Option Nat) (n0 p0 : Nat),
      (c.foldl build_index_line (init, n0, p0)).2.1 =
        c.foldl (fun a e => max a e.offset) n0 := by
  induction c with
  | nil => intro init n0 p0; rfl
  | cons e rest ih =>
      intro init n0 p0
      simp only [List.foldl_cons, build_index_line]
      rw [ih]
      congr 1
      by_cases hlt : e.offset > n0
      · simp [hlt]; omega
      · simp [hlt]; omega

theorem build_index_go_counter (t : String) :
    ∀ (disk : List (String × List LogEntry))
      (acc : (String → Option (Nat → Option Nat)) × (String → Option Nat)),
      (∀ c, (t, c) ∈ disk → (disk.map Prod.fst).Nodup →
        (build_index_go acc disk).2 t =
          some ((c.foldl (fun a e => max a e.offset) 0) + 1)) ∧
      (t ∉ disk.map Prod.fst → (build_index_go acc disk).2 t = acc.2 t) := by
  intro disk
  induction disk with
  | nil =>
      intro acc
      exact ⟨fun c hc _ => absurd hc (List.not_mem_nil _), fun _ => rfl⟩
  | cons f rest ih =>
      intro acc
      obtain ⟨k, c0⟩ := f
      constructor
      · intro c hc hnd
        have hnotin : k ∉ rest.map Prod.fst := (List.nodup_cons.mp (by simpa using hnd)).1
        have hnd' : (rest.map Prod.fst).Nodup := (List.nodup_cons.mp (by simpa using hnd)).2
        cases hc with
        | head =>
            simp only [build_index_go]
            rw [(ih _).2 (by simpa using hnotin)]
            have htr : (build_index_file ((acc.1 t).getD fun _ => none) c0).2 =
                c0.foldl (fun a e => max a e.offset) 0 :=
              build_index_line_tracker c0 _ 0 0
            show (if t = t then some ((build_index_file ((acc.1 t).getD fun _ => none) c0).2 + 1)
                else acc.2 t) = some (c0.foldl (fun a e => max a e.offset) 0 + 1)
            rw [if_pos rfl, htr]
        | tail _ hc' =>
            simp only [build_index_go]
            exact (ih _).1 c hc' hnd'
      · intro hnot
        have h1 : ¬ t = k := by
          intro hc
          exact hnot (by simp [hc])
        have h2 : t ∉ rest.map Prod.fst := by
          intro hc
          exact hnot (by simp [hc])
        simp only [build_index_go]
        rw [(ih _).2 h2]
        simp [h1]

/-! ### The claims -/

/-- C1 (counterexample): the claim says a failing durable write leaves the
next-offset counter unchanged.  It does not: starting from a freshly opened
topic whose counter is 0, an append whose write fails returns StorageError
but leaves the counter at 1, because `append_message` increments the counter
before calling write_all. -/
theorem append_fault_counter_advances :
    (append_message true (get_or_create_log_file (initState "n" []) "a") "a" 7).2 =
      .error .storageFail ∧
    (get_or_create_log_file (initState "n" []) "a").next_offsets "a" = some 0 ∧
    (append_message true (get_or_create_log_file (initState "n" []) "a") "a" 7).1.next_offsets
      "a" = some 1 := by
  refine ⟨rfl, rfl, rfl⟩

/-- C1 (as amended): when the durable write performed by append fails, append
returns a StorageError, the offset index is unchanged, no record is written
(the files are exactly those after the lazy open/create), and the commit
store is untouched — but the topic's next-offset counter HAS been advanced
by one, because the increment precedes the write. -/
theorem append_fault_spec (st : KafkaState) (t : String) (v : Nat) (k : Nat)
    (hk : (get_or_create_log_file st t).next_offsets t = some k) :
    (append_message true st t v).2 = .error .storageFail ∧
    (append_message true st t v).1.index = st.index ∧
    (append_message true st t v).1.files = (get_or_create_log_file st t).files ∧
    (append_message true st t v).1.next_offsets t = some (k + 1) ∧
    (append_message true st t v).1.commits = st.commits := by
  refine ⟨?_, ?_, ?_, ?_, ?_⟩
  · simp [append_message, hk]
  · simp only [append_message, hk]
    exact gocf_index st t
  · simp [append_message, hk]
  · simp only [append_message, hk]
    simp
  · simp only [append_message, hk]
    exact gocf_commits st t

/-- C1 (witness): the amended theorem applied at a concrete fresh node. -/
theorem append_fault_spec_witness :
    (append_message true (initState "n" []) "a" 7).2 = .error .storageFail ∧
    (append_message true (initState "n" []) "a" 7).1.index = (initState "n" []).index ∧
    (append_message true (initState "n" []) "a" 7).1.files =
      (get_or_create_log_file (initState "n" []) "a").files ∧
    (append_message true (initState "n" []) "a" 7).1.next_offsets "a" = some (0 + 1) ∧
    (append_message true (initState "n" []) "a" 7).1.commits = (initState "n" []).commits :=
  append_fault_spec (initState "n" []) "a" 7 0 rfl

/-- C2 (counterexample): the claim says a line that fails to decode is
dropped and the intake task keeps forwarding subsequent lines.  It does not:
with a decoder accepting only "g", on input ["b", "g"] the intake task
forwards nothing (the decodable line after the bad one is never read) and
stops (the source unwraps the decode result). -/
theorem intake_decode_failure_stops :
    (intake_loop (fun s => if s = "g" then some 0 else none) ["b", "g"]).1 = [] ∧
    (intake_loop (fun s => if s = "g" then some 0 else none) ["b", "g"]).2 = true := by
  constructor <;> rfl

/-- C2 (as amended): the intake task forwards, in order, the decoded messages
of the longest decodable front segment of the input, and aborts exactly when
some line fails to decode; the failing line and everything after it are never
forwarded. -/
theorem intake_loop_spec {M : Type} (decode : String → Option M) (lines : List String) :
    intake_loop decode lines =
      ((lines.takeWhile (fun l => (decode l).isSome)).filterMap decode,
       lines.any (fun l => (decode l).isNone)) := by
  induction lines with
  | nil => rfl
  | cons l rest ih =>
      cases hd : decode l <;> simp [intake_loop, hd, ih]

/-- C3 (counterexample): the claim says the rebuild sets the next-offset
counter to 0 for an empty topic file.  It does not: a present-but-empty file
gets counter 1, because the scan seeds its max tracker with 0 and always
inserts tracker + 1. -/
theorem build_index_empty_file_one :
    (build_index [("t", [])]).2 "t" = some 1 ∧
    (build_index [("t", [])]).2 "t" ≠ some 0 := by
  constructor
  · rfl
  · intro hc
    cases hc

/-- C3 (as amended): for every topic file present at startup the rebuild sets
that topic's counter to (fold of max over the offsets observed in the file,
seeded with 0) + 1 — equal to max observed + 1 for a nonempty file but to 1,
not 0, for an empty file; for a topic with no file the rebuild leaves no
counter at all (the counter is created lazily at 0 by the first append). -/
theorem build_index_counter_spec (disk : List (String × List LogEntry)) (t : String) :
    (∀ c, (t, c) ∈ disk → (disk.map Prod.fst).Nodup →
      (build_index disk).2 t = some ((c.foldl (fun a e => max a e.offset) 0) + 1)) ∧
    (t ∉ disk.map Prod.fst → (build_index disk).2 t = none) :=
  build_index_go_counter t disk ((fun _ => none), (fun _ => none))

/-- C3 (witness): the amended theorem applied to a one-file disk holding
offsets 0 and 5, and to a topic with no file. -/
theorem build_index_counter_spec_witness :
    (build_index [("a", [⟨0, 9⟩, ⟨5, 4⟩])]).2 "a" =
      some (([⟨0, 9⟩, ⟨5, 4⟩] : List LogEntry).foldl (fun a e => max a e.offset) 0 + 1) ∧
    (build_index [("a", [⟨0, 9⟩, ⟨5, 4⟩])]).2 "b" = none :=
  ⟨(build_index_counter_spec [("a", [⟨0, 9⟩, ⟨5, 4⟩])] "a").1 [⟨0, 9⟩, ⟨5, 4⟩]
      (by simp) (by simp),
   (build_index_counter_spec [("a", [⟨0, 9⟩, ⟨5, 4⟩])] "b").2 (by simp)⟩

/-- C4: on any reachable state, if the topic's index has an entry for the
requested start offset, read_messages succeeds and returns exactly the
records of the topic's file from that offset through the last appended one,
in ascending offset order with no gaps: the returned offsets are the
contiguous range from start_offset to next_offset - 1. -/
theorem read_from_indexed_spec (st : KafkaState) (t : String) (s : Nat)
    (e : Nat → Option Nat) (hre : Reach st) (he : st.index t = some e)
    (hs : (e s).isSome) :
    ∃ vs : List Nat,
      st.files t = some (mkFile vs) ∧
      st.next_offsets t = some vs.length ∧
      s < vs.length ∧
      (read_messages st t s).2 =
        .ok (((mkFile vs).drop s).map (fun r => (r.offset, r.message))) ∧
      (((mkFile vs).drop s).map (fun r => (r.offset, r.message))).map Prod.fst =
        List.range' s (vs.length - s) := by
  obtain ⟨vs, hvs⟩ := reach_inv hre t
  rcases hvs with ⟨_, _, _, _, hi⟩ | ⟨hh, hf, hn, hi⟩
  · rw [he] at hi
    cases hi
  · rw [he] at hi
    have hei : e = idxMap vs := by
      injection hi
    subst hei
    have hs' : s < vs.length := by
      by_contra hc
      simp [idxMap, hc] at hs
    obtain ⟨hpair, hval, _⟩ :=
      read_messages_spec st t vs s (Or.inr ⟨hh, hf, hn, he.trans (by rw [hi])⟩)
    refine ⟨vs, hf, hn, hs', ?_, ?_⟩
    · have h2 : (read_messages st t s).2 = .ok (readValD st t s) := congrArg Prod.snd hpair
      rw [h2, hval hs']
    · have hdr : (mkFile vs).drop s = mkFileFrom s (vs.drop s) := by
        unfold mkFile
        rw [mkFileFrom_drop]
        simp
      rw [hdr, List.map_map]
      have hcomp : (Prod.fst ∘ fun r : LogEntry => (r.offset, r.message)) =
          LogEntry.offset := rfl
      rw [hcomp, map_offset_mkFileFrom]
      congr 1
      simp

/-- C4 (witness): the theorem applied after one concrete append reaching a
state whose index maps offset 0. -/
theorem read_from_indexed_spec_witness :
    ∃ vs : List Nat,
      (step false (initState "n0" []) ⟨"c1", "n0", ⟨some 1, none, .send "t" 42⟩⟩).1.files "t" =
        some (mkFile vs) ∧
      (step false (initState "n0" []) ⟨"c1", "n0", ⟨some 1, none, .send "t" 42⟩⟩).1.next_offsets
        "t" = some vs.length ∧
      0 < vs.length ∧
      (read_messages
        (step false (initState "n0" []) ⟨"c1", "n0", ⟨some 1, none, .send "t" 42⟩⟩).1 "t" 0).2 =
        .ok (((mkFile vs).drop 0).map (fun r => (r.offset, r.message))) ∧
      (((mkFile vs).drop 0).map (fun r => (r.offset, r.message))).map Prod.fst =
        List.range' 0 (vs.length - 0) :=
  read_from_indexed_spec
    (step false (initState "n0" []) ⟨"c1", "n0", ⟨some 1, none, .send "t" 42⟩⟩).1 "t" 0
    (fun o => if o = 0 then some 0 else none)
    (Reach.next ⟨"c1", "n0", ⟨some 1, none, .send "t" 42⟩⟩ (Reach.init "n0" []))
    rfl rfl

/-- C5: starting from a freshly bootstrapped node (empty disk), any sequence
of fault-free appends to one topic returns exactly the offsets 0, 1, 2, …,
in call order. -/
theorem append_offsets_dense (node_id : String) (node_ids : List String)
    (t : String) (vs : List Nat) :
    (runAppends (initState node_id node_ids) t vs).2 =
      (List.range vs.length).map Except.ok := by
  have h0 : FileInv (initState node_id node_ids) t [] :=
    Or.inl ⟨rfl, rfl, rfl, rfl, rfl⟩
  have h := (runAppends_spec t vs (initState node_id node_ids) [] h0).1
  rw [h]
  simp [List.range_eq_range']

/-- C6: read_messages on a topic unknown to the index, or on a start offset
with no index entry, returns Ok(empty) and leaves the state untouched — it
never returns an error. -/
theorem read_from_missing_empty (st : KafkaState) (t : String) (s : Nat)
    (h : st.index t = none ∨ ∃ e, st.index t = some e ∧ e s = none) :
    read_messages st t s = (st, .ok []) := by
  rcases h with h | ⟨e, he, hs⟩
  · simp [read_messages, h]
  · simp [read_messages, he, hs]

/-- C6 (witness): the theorem applied to a fresh node and an unknown topic. -/
theorem read_from_missing_empty_witness :
    read_messages (initState "n" []) "nosuch" 0 = (initState "n" [], .ok []) :=
  read_from_missing_empty (initState "n" []) "nosuch" 0 (Or.inl rfl)

/-- C7: committing the same offset twice leaves the whole state — hence
list_committed — unchanged, and a subsequent commit of any offset m (larger
or smaller) makes list_committed report m for that topic: last write wins,
with no max-tracking. -/
theorem commit_idempotent_last_write_wins (st : KafkaState) (t : String) (n m : Nat)
    (keys : List String) (hk : t ∈ keys) :
    commit (commit st t n) t n = commit st t n ∧
    list_committed (commit (commit st t n) t n) keys =
      list_committed (commit st t n) keys ∧
    lookupA t (list_committed (commit (commit st t n) t m) keys) = some m := by
  refine ⟨commit_commit_self st t n, ?_, ?_⟩
  · rw [commit_commit_self]
  · have hrc : read_commit (commit (commit st t n) t m) t = some m := by
      simp [commit, read_commit]
    rw [list_committed, lcg_lookup_mem _ t keys [] rfl hk, hrc]

/-- C7 (witness): the theorem applied at a concrete state and key list. -/
theorem commit_idempotent_last_write_wins_witness :
    commit (commit (initState "n" []) "a" 5) "a" 5 = commit (initState "n" []) "a" 5 ∧
    list_committed (commit (commit (initState "n" []) "a" 5) "a" 5) ["a", "b"] =
      list_committed (commit (initState "n" []) "a" 5) ["a", "b"] ∧
    lookupA "a" (list_committed (commit (commit (initState "n" []) "a" 5) "a" 2) ["a", "b"]) =
      some 2 :=
  commit_idempotent_last_write_wins (initState "n" []) "a" 5 2 ["a", "b"]
    (List.mem_cons_self "a" ["b"])

/-- C8: to_reply swaps source and destination, keeps the payload, sets the
reply's in-reply-to to the input's message id, draws the reply's message id
from the supplied counter's current value, and advances the counter by
exactly one; with no counter supplied the reply carries no message id and
there is nothing to advance. -/
theorem to_reply_spec {P : Type} (msg : Message P) (seq : Option Nat) :
    (msg.to_reply seq).1.src = msg.dst ∧
    (msg.to_reply seq).1.dst = msg.src ∧
    (msg.to_reply seq).1.body.in_reply_to = msg.body.msg_id ∧
    (msg.to_reply seq).1.body.msg_id = seq ∧
    (msg.to_reply seq).1.body.payload = msg.body.payload ∧
    (msg.to_reply seq).2 = seq.map (· + 1) :=
  ⟨rfl, rfl, rfl, rfl, rfl, rfl⟩

/-- C9: when the incoming envelope carries one of the reply payload variants
(send_ok, poll_ok, commit_offsets_ok, list_committed_offsets_ok), step writes
no envelope to the sink and changes nothing except the message-id counter,
which still advances by exactly one (to_reply runs before the dispatch). -/
theorem step_reply_variant_frame (w : Bool) (st : KafkaState) (input : Message Payload)
    (h : input.body.payload.isReplyVariant = true) :
    step w st input = ({ st with msg_id_seq := st.msg_id_seq + 1 }, .ok []) := by
  obtain ⟨src, dst, ⟨mid, irt, p⟩⟩ := input
  cases p with
  | sendOk o => rfl
  | pollOk m => rfl
  | commitOffsetsOk => rfl
  | listCommittedOffsetsOk o => rfl
  | send topic message => simp [Payload.isReplyVariant] at h
  | poll offsets => simp [Payload.isReplyVariant] at h
  | commitOffsets offsets => simp [Payload.isReplyVariant] at h
  | listCommittedOffsets keys => simp [Payload.isReplyVariant] at h

/-- C9 (witness): the theorem applied to a concrete CommitOffsetsOk input. -/
theorem step_reply_variant_frame_witness :
    step false (initState "n" []) ⟨"a", "n", ⟨some 3, none, .commitOffsetsOk⟩⟩ =
      ({ initState "n" [] with msg_id_seq := (initState "n" []).msg_id_seq + 1 }, .ok []) :=
  step_reply_variant_frame false (initState "n" [])
    ⟨"a", "n", ⟨some 3, none, .commitOffsetsOk⟩⟩ rfl

/-- The value component of read_messages depends only on the index, the
files and the handle map. -/
theorem read_messages_snd_congr (st1 st2 : KafkaState) (t : String) (s : Nat)
    (hidx : st1.index = st2.index) (hf : st1.files = st2.files)
    (hfh : st1.file_handles = st2.file_handles) :
    (read_messages st1 t s).2 = (read_messages st2 t s).2 := by
  have hgf : (get_or_create_log_file st1 t).files t =
      (get_or_create_log_file st2 t).files t := by
    unfold get_or_create_log_file
    rw [hfh]
    cases hb : st2.file_handles t <;> simp [hb, hf]
  unfold read_messages
  rw [hidx]
  split
  · rfl
  · split
    · rfl
    · simp only [hgf]
      cases linesFrom (((get_or_create_log_file st2 t).files t).getD []) _ <;> rfl

/-- readValD ignores the message-id counter. -/
theorem readValD_seq_update (st : KafkaState) (x : Nat) (t : String) (s : Nat) :
    readValD { st with msg_id_seq := x } t s = readValD st t s := by
  unfold readValD
  rw [read_messages_snd_congr { st with msg_id_seq := x } st t s rfl rfl rfl]

/-- C10: on any reachable state, a poll request is answered by exactly one
poll_ok envelope whose messages map has an entry for exactly the topics named
in the request (same keys, in request order), where each requested topic maps
to the records read at its requested offset — in particular a topic that is
unknown or whose requested offset has no index entry is present and maps to
the empty list, not omitted. -/
theorem step_poll_exact_topics (st : KafkaState) (offsets : List (String × Nat))
    (src dst : String) (mid irt : Option Nat)
    (hre : Reach st) (hnd : (offsets.map Prod.fst).Nodup) :
    step false st ⟨src, dst, ⟨mid, irt, .poll offsets⟩⟩ =
      ({ st with msg_id_seq := st.msg_id_seq + 1 },
       .ok [⟨dst, src, ⟨some st.msg_id_seq, mid,
         .pollOk (offsets.map (fun p => (p.1, readValD st p.1 p.2)))⟩⟩]) ∧
    (offsets.map (fun p => (p.1, readValD st p.1 p.2))).map Prod.fst =
      offsets.map Prod.fst ∧
    (∀ t o, (t, o) ∈ offsets →
      lookupA t (offsets.map (fun p => (p.1, readValD st p.1 p.2))) =
        some (readValD st t o)) ∧
    (∀ t o, (t, o) ∈ offsets →
      (st.index t = none ∨ ∃ e, st.index t = some e ∧ e o = none) →
      readValD st t o = []) := by
  have hinv : Inv st := reach_inv hre
  have hseq : Inv { st with msg_id_seq := st.msg_id_seq + 1 } := hinv
  refine ⟨?_, ?_, ?_, ?_⟩
  · have hfold := poll_fold_spec { st with msg_id_seq := st.msg_id_seq + 1 } hseq offsets []
    have hasm := poll_assemble { st with msg_id_seq := st.msg_id_seq + 1 } offsets [] hnd
      (fun q _ => rfl)
    simp only [step, Message.to_reply, Option.map_some', Option.getD_some]
    rw [hfold, hasm]
    simp only [List.nil_append, readValD_seq_update]
  · rw [List.map_map]
    rfl
  · intro t o hm
    exact lookupA_map_readValD st t o offsets hm hnd
  · intro t o hm hun
    exact readValD_unknown st t o hun

/-- C10 (witness): the theorem applied on a reachable state (one append to
topic "t") to a request naming the known topic "t" and the unknown topic
"u". -/
theorem step_poll_exact_topics_witness :
    (step false (step false (initState "n0" []) ⟨"c1", "n0", ⟨some 1, none, .send "t" 42⟩⟩).1
        ⟨"c2", "n0", ⟨some 2, none, .poll [("t", 0), ("u", 0)]⟩⟩ =
      ({ (step false (initState "n0" []) ⟨"c1", "n0", ⟨some 1, none, .send "t" 42⟩⟩).1 with
          msg_id_seq := (step false (initState "n0" [])
            ⟨"c1", "n0", ⟨some 1, none, .send "t" 42⟩⟩).1.msg_id_seq + 1 },
       .ok [⟨"n0", "c2", ⟨some (step false (initState "n0" [])
            ⟨"c1", "n0", ⟨some 1, none, .send "t" 42⟩⟩).1.msg_id_seq, some 2,
         .pollOk ([("t", 0), ("u", 0)].map (fun p =>
           (p.1, readValD (step false (initState "n0" [])
             ⟨"c1", "n0", ⟨some 1, none, .send "t" 42⟩⟩).1 p.1 p.2)))⟩⟩])) ∧
    (([("t", 0), ("u", 0)] : List (String × Nat)).map (fun p =>
        (p.1, readValD (step false (initState "n0" [])
          ⟨"c1", "n0", ⟨some 1, none, .send "t" 42⟩⟩).1 p.1 p.2))).map Prod.fst =
      ([("t", 0), ("u", 0)] : List (String × Nat)).map Prod.fst ∧
    (∀ t o, (t, o) ∈ ([("t", 0), ("u", 0)] : List (String × Nat)) →
      lookupA t (([("t", 0), ("u", 0)] : List (String × Nat)).map (fun p =>
        (p.1, readValD (step false (initState "n0" [])
          ⟨"c1", "n0", ⟨some 1, none, .send "t" 42⟩⟩).1 p.1 p.2))) =
        some (readValD (step false (initState "n0" [])
          ⟨"c1", "n0", ⟨some 1, none, .send "t" 42⟩⟩).1 t o)) ∧
    (∀ t o, (t, o) ∈ ([("t", 0), ("u", 0)] : List (String × Nat)) →
      ((step false (initState "n0" []) ⟨"c1", "n0", ⟨some 1, none, .send "t" 42⟩⟩).1.index t =
          none ∨
        ∃ e, (step false (initState "n0" [])
            ⟨"c1", "n0", ⟨some 1, none, .send "t" 42⟩⟩).1.index t = some e ∧ e o = none) →
      readValD (step false (initState "n0" [])
        ⟨"c1", "n0", ⟨some 1, none, .send "t" 42⟩⟩).1 t o = []) :=
  step_poll_exact_topics
    (step false (initState "n0" []) ⟨"c1", "n0", ⟨some 1, none, .send "t" 42⟩⟩).1
    [("t", 0), ("u", 0)] "c2" "n0" (some 2) none
    (Reach.next ⟨"c1", "n0", ⟨some 1, none, .send "t" 42⟩⟩ (Reach.init "n0" []))
    (by simp)

end FlyioDist
